import Mathlib

/-!
Shallow embedding of the cache-simulator core (`src/src/lib.rs`).

Machine integers (`u64`, `usize`) are modelled as `Nat`; all arithmetic in the
source (clock increments, counter increments, shifts, masks) stays far below
2^64 on every input the claims quantify over, so no explicit wrap-around is
needed.  Rust panics (`unwrap`, out-of-bounds indexing, the `unreachable!`
branch) are modelled as `none` of an `Option` result, so fallible code is
explicit.  Strings are modelled as `List Char`.
-/

namespace CacheSim

/-- One cache line, as in the Rust `CacheLine` struct. -/
structure CacheLine where
  valid : Bool
  tag : Nat
  last_used : Nat
deriving DecidableEq

/-- `CacheLine::is_hit`: the line is valid and its tag matches. -/
def CacheLine.is_hit (l : CacheLine) (tag : Nat) : Bool :=
  l.valid && l.tag == tag

/-- The line value used by `Cache::new` for fresh lines; also the `getD` default. -/
def dfltLine : CacheLine := ⟨false, 0, 0⟩

/-- A cache set, as in the Rust `CacheSet` struct. -/
structure CacheSet where
  lines : List CacheLine
deriving DecidableEq

/-- In-place update of one list element, modelling mutation through `iter_mut`. -/
def updateAt (f : CacheLine → CacheLine) : Nat → List CacheLine → List CacheLine
  | _, [] => []
  | 0, l :: ls => f l :: ls
  | n + 1, l :: ls => l :: updateAt f n ls

/-- Index of the first line satisfying `is_hit tag`, modelling
`self.lines.iter_mut().find(|line| line.is_hit(tag))`. -/
def findHitIdx (tag : Nat) : List CacheLine → Option Nat
  | [] => none
  | l :: ls => if l.is_hit tag then some 0 else (findHitIdx tag ls).map (· + 1)

/-- Fold underlying Rust `min_by_key`: the running best index `bi` with best key
`bl` is replaced only when a strictly smaller key appears, so the first minimal
element wins. `i` is the index of the head of the remaining list. -/
def lruAux (bi bl i : Nat) : List CacheLine → Nat
  | [] => bi
  | l :: ls =>
    if l.last_used < bl then lruAux i l.last_used (i + 1) ls
    else lruAux bi bl (i + 1) ls

/-- Index chosen by `self.lines.iter_mut().min_by_key(|line| line.last_used)`:
first index realising the minimum `last_used`; `none` on an empty set. -/
def lruVictimIdx : List CacheLine → Option Nat
  | [] => none
  | l :: ls => some (lruAux 0 l.last_used 1 ls)

/-- `CacheSet::access`.  Returns `((hit, eviction), updated set, updated clock)`;
`none` models the `unreachable!` panic taken when the set has zero lines. -/
def CacheSet.access (set : CacheSet) (tag : Nat) (current_time : Nat) :
    Option ((Bool × Bool) × CacheSet × Nat) :=
  match findHitIdx tag set.lines with
  | some i =>
    some ((true, false),
      ⟨updateAt (fun l => { l with last_used := current_time }) i set.lines⟩,
      current_time)
  | none =>
    let t := current_time + 1
    match lruVictimIdx set.lines with
    | some j =>
      let victim := set.lines.getD j dfltLine
      some ((false, victim.valid), ⟨updateAt (fun _ => ⟨true, tag, t⟩) j set.lines⟩, t)
    | none => none

/-- The Rust `Cache` struct. -/
structure Cache where
  sets : List CacheSet
  hits : Nat
  misses : Nat
  evictions : Nat
deriving DecidableEq

/-- `Cache::new(s, e)`: `2^s` sets of `e` invalid lines each, zero counters. -/
def Cache.new (s e : Nat) : Cache :=
  { sets := List.replicate (2 ^ s) ⟨List.replicate e dfltLine⟩
    hits := 0
    misses := 0
    evictions := 0 }

/-- `calculate_index_and_tag`. -/
def calculate_index_and_tag (address : Nat) (s b : Nat) : Nat × Nat :=
  ((address >>> b) &&& ((1 <<< s) - 1), address >>> (s + b))

/-- ASCII whitespace test used by the trace-line model (the trace format only
contains spaces; tabs and line breaks are included for good measure). -/
def isWs (c : Char) : Bool :=
  c = ' ' || c = '\t' || c = '\n' || c = '\r'

/-- Accumulator loop behind the `split_whitespace` model: `cur` holds the
characters of the token in progress, in reverse. -/
def splitWsAux (cur : List Char) : List Char → List (List Char)
  | [] =>
    match cur with
    | [] => []
    | _ => [cur.reverse]
  | c :: cs =>
    if isWs c then
      match cur with
      | [] => splitWsAux [] cs
      | _ => cur.reverse :: splitWsAux [] cs
    else splitWsAux (c :: cur) cs

/-- Model of Rust `str::split_whitespace`: maximal runs of non-whitespace. -/
def splitWhitespace (l : List Char) : List (List Char) :=
  splitWsAux [] l

/-- Value of one hexadecimal digit. -/
def hexVal (c : Char) : Option Nat :=
  if '0' ≤ c ∧ c ≤ '9' then some (c.toNat - '0'.toNat)
  else if 'a' ≤ c ∧ c ≤ 'f' then some (c.toNat - 'a'.toNat + 10)
  else if 'A' ≤ c ∧ c ≤ 'F' then some (c.toNat - 'A'.toNat + 10)
  else none

/-- Digit-accumulating loop of `u64::from_str_radix(_, 16)`. -/
def hexAux (acc : Nat) : List Char → Option Nat
  | [] => some acc
  | c :: cs =>
    match hexVal c with
    | some v => hexAux (acc * 16 + v) cs
    | none => none

/-- `u64::from_str_radix(s, 16)`: optional leading plus sign, then at least one
hex digit; `none` on an empty digit string, an invalid digit, or overflow. -/
def from_str_radix_16 (l : List Char) : Option Nat :=
  let digits := match l with
    | '+' :: rest => rest
    | _ => l
  match digits with
  | [] => none
  | _ =>
    match hexAux 0 digits with
    | some v => if v < 2 ^ 64 then some v else none
    | none => none

/-- `parse_trace_line`.  The outer `none` models a Rust panic (an `unwrap`
or slice-index failure on a malformed line); `some none` models the Rust
`None` returned for a filtered instruction-fetch line. -/
def parse_trace_line (line : List Char) : Option (Option (Char × Nat)) :=
  if line.head? = some 'I' then some none
  else
    match splitWhitespace line with
    | [] => none
    | p0 :: rest =>
      match p0.head? with
      | none => none
      | some operation =>
        match rest.head? with
        | none => none
        | some p1 =>
          match from_str_radix_16 (p1.takeWhile (fun c => c ≠ ',')) with
          | none => none
          | some address => some (some (operation, address))

/-- Default cache set for `getD` on the sets list. -/
def dfltSet : CacheSet := ⟨[]⟩

/-- One iteration of the loop body of `hits_misses_evictions_calc`, acting on
the pair (cache, current_time); `none` models a panic (parse failure,
out-of-bounds set index, or an empty set). -/
def processLine (s b : Nat) (st : Cache × Nat) (line : List Char) :
    Option (Cache × Nat) :=
  match parse_trace_line line with
  | none => none
  | some none => some st
  | some (some (operation, address)) =>
    let (set_index, tag) := calculate_index_and_tag address s b
    match st.1.sets.get? set_index with
    | none => none
    | some set =>
      match set.access tag st.2 with
      | none => none
      | some ((hit, eviction), newSet, t2) =>
        let c0 := st.1
        let c1 := { c0 with sets := c0.sets.set set_index newSet }
        let c2 :=
          if hit then { c1 with hits := c1.hits + 1 }
          else
            { c1 with
              misses := c1.misses + 1
              evictions := c1.evictions + (if eviction then 1 else 0) }
        let c3 := if operation = 'M' then { c2 with hits := c2.hits + 1 } else c2
        some (c3, t2)

/-- `hits_misses_evictions_calc`: fold the loop body over the trace lines,
starting the shared clock at 0; `none` models a panic anywhere in the run. -/
def hits_misses_evictions_calc (cache : Cache) (lines : List (List Char))
    (s b : Nat) : Option (Cache × Nat) :=
  lines.foldl (fun acc line => acc.bind (fun st => processLine s b st line))
    (some (cache, 0))

/-- `last_used` of the `j`-th line (total, via a default line). -/
def lu (lines : List CacheLine) (j : Nat) : Nat :=
  (lines.getD j dfltLine).last_used

/-- `updateAt` never changes the length. -/
theorem updateAt_length (f : CacheLine → CacheLine) (i : Nat) (l : List CacheLine) :
    (updateAt f i l).length = l.length := by
  induction l generalizing i with
  | nil => cases i <;> rfl
  | cons x xs ih =>
    cases i with
    | zero => rfl
    | succ n => simpa [updateAt] using ih n

/-- `getD` through `updateAt`: the `i`-th element is transformed (when in
range), every other element is untouched. -/
theorem getD_updateAt (f : CacheLine → CacheLine) (i j : Nat) (l : List CacheLine)
    (d : CacheLine) :
    (updateAt f i l).getD j d =
      if i = j ∧ j < l.length then f (l.getD j d) else l.getD j d := by
  induction l generalizing i j with
  | nil =>
    cases i <;> simp [updateAt]
  | cons x xs ih =>
    cases i with
    | zero =>
      cases j with
      | zero => simp [updateAt]
      | succ m => simp [updateAt]
    | succ n =>
      cases j with
      | zero => simp [updateAt]
      | succ m =>
        simp only [updateAt, List.getD_cons_succ, ih n m, List.length_cons]
        by_cases h : n = m ∧ m < xs.length
        · rw [if_pos h, if_pos ⟨by omega, by omega⟩]
        · rw [if_neg h, if_neg (by omega)]

/-- In-range `getD` values are members of the list. -/
theorem getD_mem {α : Type} {l : List α} {j : Nat} (h : j < l.length) (d : α) :
    l.getD j d ∈ l := by
  rw [List.getD_eq_getElem _ _ h]
  exact List.getElem_mem h

/-- `findHitIdx` is `none` exactly when no line hits. -/
theorem findHitIdx_eq_none (tag : Nat) (l : List CacheLine) :
    findHitIdx tag l = none ↔ ∀ x ∈ l, x.is_hit tag = false := by
  induction l with
  | nil => simp [findHitIdx]
  | cons x xs ih =>
    by_cases h : x.is_hit tag
    · simp [findHitIdx, h]
    · simp only [findHitIdx, if_neg h, Option.map_eq_none', ih, List.mem_cons]
      constructor
      · rintro hall y (rfl | hy)
        · exact Bool.eq_false_iff.mpr h
        · exact hall y hy
      · intro hall y hy
        exact hall y (Or.inr hy)

/-- A successful `findHitIdx` returns the first hitting index. -/
theorem findHitIdx_some_spec (tag : Nat) (l : List CacheLine) (i : Nat)
    (h : findHitIdx tag l = some i) :
    i < l.length ∧ (l.getD i dfltLine).is_hit tag = true ∧
      ∀ j, j < i → (l.getD j dfltLine).is_hit tag = false := by
  induction l generalizing i with
  | nil => simp [findHitIdx] at h
  | cons x xs ih =>
    by_cases hx : x.is_hit tag
    · simp only [findHitIdx, if_pos hx, Option.some_inj] at h
      subst h
      exact ⟨by simp, by simpa using hx, fun j hj => absurd hj (Nat.not_lt_zero j)⟩
    · simp only [findHitIdx, if_neg hx, Option.map_eq_some'] at h
      obtain ⟨i0, hi0, rfl⟩ := h
      obtain ⟨h1, h2, h3⟩ := ih i0 hi0
      refine ⟨by simpa using h1, by simpa using h2, ?_⟩
      intro j hj
      cases j with
      | zero => simpa using Bool.eq_false_iff.mpr hx
      | succ m =>
        rw [List.getD_cons_succ]
        exact h3 m (by omega)

/-- `lu` on `cons`, head case. -/
theorem lu_cons_zero (l : CacheLine) (ls : List CacheLine) :
    lu (l :: ls) 0 = l.last_used := rfl

/-- `lu` on `cons`, tail case. -/
theorem lu_cons_succ (l : CacheLine) (ls : List CacheLine) (j : Nat) :
    lu (l :: ls) (j + 1) = lu ls j := by
  simp [lu]

/-- Full behaviour of the `min_by_key` fold `lruAux`: either the running best
survives (everything remaining is at least as large), or the first strictly
smaller minimum of the remainder is returned. -/
theorem lruAux_spec (ls : List CacheLine) :
    ∀ bi bl i : Nat,
      (lruAux bi bl i ls = bi ∧ ∀ k, k < ls.length → bl ≤ lu ls k) ∨
      (∃ k, k < ls.length ∧ lruAux bi bl i ls = i + k ∧ lu ls k < bl ∧
        (∀ m, m < ls.length → lu ls k ≤ lu ls m) ∧
        (∀ m, m < k → lu ls k < lu ls m)) := by
  induction ls with
  | nil =>
    intro bi bl i
    left
    exact ⟨rfl, fun k hk => absurd hk (Nat.not_lt_zero k)⟩
  | cons l ls ih =>
    intro bi bl i
    by_cases h : l.last_used < bl
    · rcases ih i l.last_used (i + 1) with ⟨heq, hall⟩ | ⟨k, hk, heq, hlt, hmin, hstrict⟩
      · right
        refine ⟨0, by simp, ?_, ?_, ?_, ?_⟩
        · simpa [lruAux, if_pos h] using heq
        · simpa [lu_cons_zero] using h
        · intro m hm
          cases m with
          | zero => exact Nat.le_refl _
          | succ m0 =>
            rw [lu_cons_zero, lu_cons_succ]
            exact hall m0 (by simpa using hm)
        · intro m hm
          exact absurd hm (Nat.not_lt_zero m)
      · right
        refine ⟨k + 1, by simpa using hk, ?_, ?_, ?_, ?_⟩
        · rw [lruAux, if_pos h, heq]
          omega
        · rw [lu_cons_succ]
          exact Nat.lt_trans hlt h
        · intro m hm
          cases m with
          | zero =>
            rw [lu_cons_succ, lu_cons_zero]
            exact Nat.le_of_lt hlt
          | succ m0 =>
            rw [lu_cons_succ, lu_cons_succ]
            exact hmin m0 (by simpa using hm)
        · intro m hm
          cases m with
          | zero =>
            rw [lu_cons_succ, lu_cons_zero]
            exact hlt
          | succ m0 =>
            rw [lu_cons_succ, lu_cons_succ]
            exact hstrict m0 (by omega)
    · rcases ih bi bl (i + 1) with ⟨heq, hall⟩ | ⟨k, hk, heq, hlt, hmin, hstrict⟩
      · left
        refine ⟨by simpa [lruAux, if_neg h] using heq, ?_⟩
        intro k hk
        cases k with
        | zero =>
          rw [lu_cons_zero]
          exact Nat.le_of_not_lt h
        | succ m0 =>
          rw [lu_cons_succ]
          exact hall m0 (by simpa using hk)
      · right
        refine ⟨k + 1, by simpa using hk, ?_, ?_, ?_, ?_⟩
        · rw [lruAux, if_neg h, heq]
          omega
        · rw [lu_cons_succ]
          exact hlt
        · intro m hm
          cases m with
          | zero =>
            rw [lu_cons_succ, lu_cons_zero]
            exact Nat.le_trans (Nat.le_of_lt hlt) (Nat.le_of_not_lt h)
          | succ m0 =>
            rw [lu_cons_succ, lu_cons_succ]
            exact hmin m0 (by simpa using hm)
        · intro m hm
          cases m with
          | zero =>
            rw [lu_cons_succ, lu_cons_zero]
            exact Nat.lt_of_lt_of_le hlt (Nat.le_of_not_lt h)
          | succ m0 =>
            rw [lu_cons_succ, lu_cons_succ]
            exact hstrict m0 (by omega)

/-- `lruVictimIdx` of a nonempty set returns the first index realising the
minimum `last_used`. -/
theorem lruVictimIdx_spec (lines : List CacheLine) (hne : lines ≠ []) :
    ∃ i, lruVictimIdx lines = some i ∧ i < lines.length ∧
      (∀ j, j < lines.length → lu lines i ≤ lu lines j) ∧
      (∀ j, j < i → lu lines i < lu lines j) := by
  cases lines with
  | nil => exact absurd rfl hne
  | cons l ls =>
    rcases lruAux_spec ls 0 l.last_used 1 with ⟨heq, hall⟩ | ⟨k, hk, heq, hlt, hmin, hstrict⟩
    · refine ⟨0, by simp [lruVictimIdx, heq], by simp, ?_, ?_⟩
      · intro j hj
        cases j with
        | zero => exact Nat.le_refl _
        | succ m =>
          rw [lu_cons_zero, lu_cons_succ]
          exact hall m (by simpa using hj)
      · intro j hj
        exact absurd hj (Nat.not_lt_zero j)
    · refine ⟨k + 1, ?_, by simpa using hk, ?_, ?_⟩
      · simp only [lruVictimIdx, heq, Option.some_inj]
        omega
      · intro j hj
        cases j with
        | zero =>
          rw [lu_cons_succ, lu_cons_zero]
          exact Nat.le_of_lt hlt
        | succ m =>
          rw [lu_cons_succ, lu_cons_succ]
          exact hmin m (by simpa using hj)
      · intro j hj
        cases j with
        | zero =>
          rw [lu_cons_succ, lu_cons_zero]
          exact hlt
        | succ m =>
          rw [lu_cons_succ, lu_cons_succ]
          exact hstrict m (by omega)

/-- Claim C4: the address decoder computes
`set_index = (address >> b) & ((1 << s) - 1)` — equivalently
`(address >> b) mod 2^s` — and `tag = address >> (s + b)`; the three
documented example decodes hold, and `s = 0` always gives set index 0. -/
theorem C4_decode_arithmetic :
    (∀ address s b : Nat,
      calculate_index_and_tag address s b =
        ((address >>> b) % 2 ^ s, address / 2 ^ (s + b))) ∧
    (∀ address b : Nat, (calculate_index_and_tag address 0 b).1 = 0) ∧
    calculate_index_and_tag 0x12345678 4 5 = (3, 596523) ∧
    calculate_index_and_tag 0x12345678 3 4 = (7, 2386092) ∧
    calculate_index_and_tag 0x12345678 0 0 = (0, 0x12345678) := by
  refine ⟨fun address s b => ?_, fun address b => ?_, by decide, by decide, by decide⟩
  · unfold calculate_index_and_tag
    simp [Nat.shiftLeft_eq, Nat.and_pow_two_sub_one_eq_mod, Nat.shiftRight_eq_div_pow]
  · unfold calculate_index_and_tag
    simp [Nat.shiftLeft_eq, Nat.and_pow_two_sub_one_eq_mod, Nat.mod_one]

/-- Behaviour of `access` when some line hits. -/
theorem access_hit_eq (set : CacheSet) (tag t i : Nat)
    (hfind : findHitIdx tag set.lines = some i) :
    set.access tag t = some ((true, false),
      ⟨updateAt (fun l => { l with last_used := t }) i set.lines⟩, t) := by
  simp [CacheSet.access, hfind]

/-- Behaviour of `access` on a miss with a victim available. -/
theorem access_miss_eq (set : CacheSet) (tag t j : Nat)
    (hfind : findHitIdx tag set.lines = none)
    (hvic : lruVictimIdx set.lines = some j) :
    set.access tag t = some ((false, (set.lines.getD j dfltLine).valid),
      ⟨updateAt (fun _ => ⟨true, tag, t + 1⟩) j set.lines⟩, t + 1) := by
  simp [CacheSet.access, hfind, hvic]

/-- `access` panics (returns `none`) only on a zero-line set. -/
theorem access_none_eq (set : CacheSet) (tag t : Nat)
    (hfind : findHitIdx tag set.lines = none)
    (hvic : lruVictimIdx set.lines = none) :
    set.access tag t = none := by
  simp [CacheSet.access, hfind, hvic]

/-- Claim C1: on a miss (no valid line matches the tag), `CacheSet::access`
advances the clock by exactly 1, picks as victim the line with minimum
`last_used` breaking ties by the first index, overwrites it with
`valid = true`, the query tag and the post-increment clock, and returns
`(false, evicted)` where `evicted` is the victim's prior valid flag. -/
theorem C1_miss_evicts_lru_victim (set : CacheSet) (tag t : Nat)
    (hmiss : ∀ l ∈ set.lines, l.is_hit tag = false)
    (hne : set.lines ≠ []) :
    ∃ i set2,
      lruVictimIdx set.lines = some i ∧ i < set.lines.length ∧
      (∀ j, j < set.lines.length → lu set.lines i ≤ lu set.lines j) ∧
      (∀ j, j < i → lu set.lines i < lu set.lines j) ∧
      set.access tag t =
        some ((false, (set.lines.getD i dfltLine).valid), set2, t + 1) ∧
      set2.lines.length = set.lines.length ∧
      set2.lines.getD i dfltLine = ⟨true, tag, t + 1⟩ ∧
      (∀ j, j ≠ i → set2.lines.getD j dfltLine = set.lines.getD j dfltLine) := by
  have hfind : findHitIdx tag set.lines = none := (findHitIdx_eq_none tag set.lines).mpr hmiss
  obtain ⟨i, hvic, hilen, hmin, hstrict⟩ := lruVictimIdx_spec set.lines hne
  refine ⟨i, ⟨updateAt (fun _ => ⟨true, tag, t + 1⟩) i set.lines⟩,
    hvic, hilen, hmin, hstrict, ?_, ?_, ?_, ?_⟩
  · simp [CacheSet.access, hfind, hvic]
  · exact updateAt_length _ _ _
  · rw [getD_updateAt, if_pos ⟨rfl, hilen⟩]
  · intro j hj
    rw [getD_updateAt, if_neg (by tauto)]

/-- Witness for C1 at a concrete two-line set: tag 9 misses, the victim is
line 1 (strictly smaller `last_used`), and it is overwritten at clock 11. -/
theorem C1_witness :
    ∃ i set2,
      lruVictimIdx (CacheSet.mk [⟨true, 5, 3⟩, ⟨true, 7, 2⟩]).lines = some i ∧
      i < (CacheSet.mk [⟨true, 5, 3⟩, ⟨true, 7, 2⟩]).lines.length ∧
      (∀ j, j < (CacheSet.mk [⟨true, 5, 3⟩, ⟨true, 7, 2⟩]).lines.length →
        lu (CacheSet.mk [⟨true, 5, 3⟩, ⟨true, 7, 2⟩]).lines i ≤
          lu (CacheSet.mk [⟨true, 5, 3⟩, ⟨true, 7, 2⟩]).lines j) ∧
      (∀ j, j < i → lu (CacheSet.mk [⟨true, 5, 3⟩, ⟨true, 7, 2⟩]).lines i <
        lu (CacheSet.mk [⟨true, 5, 3⟩, ⟨true, 7, 2⟩]).lines j) ∧
      (CacheSet.mk [⟨true, 5, 3⟩, ⟨true, 7, 2⟩]).access 9 10 =
        some ((false, ((CacheSet.mk [⟨true, 5, 3⟩, ⟨true, 7, 2⟩]).lines.getD i
          dfltLine).valid), set2, 10 + 1) ∧
      set2.lines.length = (CacheSet.mk [⟨true, 5, 3⟩, ⟨true, 7, 2⟩]).lines.length ∧
      set2.lines.getD i dfltLine = ⟨true, 9, 10 + 1⟩ ∧
      (∀ j, j ≠ i → set2.lines.getD j dfltLine =
        (CacheSet.mk [⟨true, 5, 3⟩, ⟨true, 7, 2⟩]).lines.getD j dfltLine) :=
  C1_miss_evicts_lru_victim ⟨[⟨true, 5, 3⟩, ⟨true, 7, 2⟩]⟩ 9 10 (by decide) (by decide)

/-- Claim C2: on a hit, `CacheSet::access` sets the first matching valid
line's `last_used` to the current clock, leaves everything else untouched,
returns `(true, false)`, and does not advance the clock; in general the clock
is returned unchanged on a hit and advanced by exactly 1 on a miss. -/
theorem C2_hit_no_clock_advance (set : CacheSet) (tag t : Nat)
    (hhit : ∃ l ∈ set.lines, l.is_hit tag = true) :
    (∃ i set2,
      findHitIdx tag set.lines = some i ∧ i < set.lines.length ∧
      (set.lines.getD i dfltLine).valid = true ∧
      (set.lines.getD i dfltLine).tag = tag ∧
      (∀ j, j < i → (set.lines.getD j dfltLine).is_hit tag = false) ∧
      set.access tag t = some ((true, false), set2, t) ∧
      set2.lines.length = set.lines.length ∧
      set2.lines.getD i dfltLine =
        { set.lines.getD i dfltLine with last_used := t } ∧
      (∀ j, j ≠ i → set2.lines.getD j dfltLine = set.lines.getD j dfltLine)) ∧
    (∀ (s2 : CacheSet) (tg t2 : Nat) r, CacheSet.access s2 tg t2 = some r →
      (r.1.1 = true → r.2.2 = t2) ∧ (r.1.1 = false → r.2.2 = t2 + 1)) := by
  constructor
  · have hne : findHitIdx tag set.lines ≠ none := by
      rw [Ne, findHitIdx_eq_none]
      intro hall
      obtain ⟨l, hl, hhit2⟩ := hhit
      rw [hall l hl] at hhit2
      exact Bool.false_ne_true hhit2
    obtain ⟨i, hfind⟩ := Option.ne_none_iff_exists'.mp hne
    obtain ⟨hilen, hhiti, hbefore⟩ := findHitIdx_some_spec tag set.lines i hfind
    have hvalid : (set.lines.getD i dfltLine).valid = true := by
      have := hhiti
      simp only [CacheLine.is_hit, Bool.and_eq_true, beq_iff_eq] at this
      exact this.1
    have htag : (set.lines.getD i dfltLine).tag = tag := by
      have := hhiti
      simp only [CacheLine.is_hit, Bool.and_eq_true, beq_iff_eq] at this
      exact this.2
    refine ⟨i, ⟨updateAt (fun l => { l with last_used := t }) i set.lines⟩,
      hfind, hilen, hvalid, htag, hbefore, ?_, updateAt_length _ _ _, ?_, ?_⟩
    · simp [CacheSet.access, hfind]
    · rw [getD_updateAt, if_pos ⟨rfl, hilen⟩]
    · intro j hj
      rw [getD_updateAt, if_neg (by tauto)]
  · intro s2 tg t2 r hacc
    cases hfind : findHitIdx tg s2.lines with
    | some i =>
      rw [access_hit_eq s2 tg t2 i hfind, Option.some_inj] at hacc
      subst hacc
      exact ⟨fun _ => rfl, fun hf => by simp at hf⟩
    | none =>
      cases hvic : lruVictimIdx s2.lines with
      | some j =>
        rw [access_miss_eq s2 tg t2 j hfind hvic, Option.some_inj] at hacc
        subst hacc
        exact ⟨fun ht => by simp at ht, fun _ => rfl⟩
      | none =>
        rw [access_none_eq s2 tg t2 hfind hvic] at hacc
        cases hacc

/-- Witness for C2: tag 4 hits line 1 of a concrete set at clock 9. -/
theorem C2_witness :
    (∃ i set2,
      findHitIdx 4 (CacheSet.mk [⟨false, 0, 0⟩, ⟨true, 4, 1⟩]).lines = some i ∧
      i < (CacheSet.mk [⟨false, 0, 0⟩, ⟨true, 4, 1⟩]).lines.length ∧
      ((CacheSet.mk [⟨false, 0, 0⟩, ⟨true, 4, 1⟩]).lines.getD i dfltLine).valid = true ∧
      ((CacheSet.mk [⟨false, 0, 0⟩, ⟨true, 4, 1⟩]).lines.getD i dfltLine).tag = 4 ∧
      (∀ j, j < i → ((CacheSet.mk [⟨false, 0, 0⟩, ⟨true, 4, 1⟩]).lines.getD j
        dfltLine).is_hit 4 = false) ∧
      (CacheSet.mk [⟨false, 0, 0⟩, ⟨true, 4, 1⟩]).access 4 9 =
        some ((true, false), set2, 9) ∧
      set2.lines.length = (CacheSet.mk [⟨false, 0, 0⟩, ⟨true, 4, 1⟩]).lines.length ∧
      set2.lines.getD i dfltLine =
        { (CacheSet.mk [⟨false, 0, 0⟩, ⟨true, 4, 1⟩]).lines.getD i dfltLine with
          last_used := 9 } ∧
      (∀ j, j ≠ i → set2.lines.getD j dfltLine =
        (CacheSet.mk [⟨false, 0, 0⟩, ⟨true, 4, 1⟩]).lines.getD j dfltLine)) ∧
    (∀ (s2 : CacheSet) (tg t2 : Nat) r, CacheSet.access s2 tg t2 = some r →
      (r.1.1 = true → r.2.2 = t2) ∧ (r.1.1 = false → r.2.2 = t2 + 1)) :=
  C2_hit_no_clock_advance ⟨[⟨false, 0, 0⟩, ⟨true, 4, 1⟩]⟩ 4 9 (by decide)

/-- Claim C5: the eviction flag is false on a hit and, on a miss, is exactly
the replacement victim's valid flag as it stood before the overwrite. -/
theorem C5_eviction_iff_victim_valid (set : CacheSet) (tag t : Nat)
    (hit ev : Bool) (set2 : CacheSet) (t2 : Nat)
    (hacc : set.access tag t = some ((hit, ev), set2, t2)) :
    (hit = true → ev = false) ∧
    (hit = false → ∃ i, lruVictimIdx set.lines = some i ∧
      ev = (set.lines.getD i dfltLine).valid) := by
  cases hfind : findHitIdx tag set.lines with
  | some i =>
    rw [access_hit_eq set tag t i hfind, Option.some_inj, Prod.mk.injEq,
      Prod.mk.injEq] at hacc
    obtain ⟨⟨hhit, hev⟩, -⟩ := hacc
    refine ⟨fun _ => hev.symm, fun hf => ?_⟩
    rw [← hhit] at hf
    exact absurd hf (by simp)
  | none =>
    cases hvic : lruVictimIdx set.lines with
    | some j =>
      rw [access_miss_eq set tag t j hfind hvic, Option.some_inj, Prod.mk.injEq,
        Prod.mk.injEq] at hacc
      obtain ⟨⟨hhit, hev⟩, -⟩ := hacc
      refine ⟨fun ht => ?_, fun _ => ⟨j, rfl, hev.symm⟩⟩
      rw [← hhit] at ht
      exact absurd ht (by simp)
    | none =>
      rw [access_none_eq set tag t hfind hvic] at hacc
      cases hacc

/-- Witness for C5 at a concrete full single-line set: the miss evicts and the
eviction flag equals the victim's prior valid flag. -/
theorem C5_witness :
    ((false : Bool) = true → (true : Bool) = false) ∧
    ((false : Bool) = false → ∃ i,
      lruVictimIdx (CacheSet.mk [⟨true, 1, 0⟩]).lines = some i ∧
      (true : Bool) = ((CacheSet.mk [⟨true, 1, 0⟩]).lines.getD i dfltLine).valid) :=
  C5_eviction_iff_victim_valid ⟨[⟨true, 1, 0⟩]⟩ 2 0 false true ⟨[⟨true, 2, 1⟩]⟩ 1
    (by decide)

/-- No two valid lines of a set carry the same tag. -/
def NoDupValidTags (lines : List CacheLine) : Prop :=
  List.Pairwise (fun a b => a.valid = true → b.valid = true → a.tag ≠ b.tag) lines

/-- Tags of the valid lines, in index order. -/
def validTags (lines : List CacheLine) : List Nat :=
  (lines.filter fun l => l.valid).map fun l => l.tag

/-- Any finite sequence of `access` calls, each with an arbitrary tag and an
arbitrary clock value (a panicking call leaves the set unchanged). -/
def accessSeq : List CacheLine → List (Nat × Nat) → List CacheLine
  | lines, [] => lines
  | lines, (tag, t) :: rest =>
    match CacheSet.access ⟨lines⟩ tag t with
    | some (_, set2, _) => accessSeq set2.lines rest
    | none => accessSeq lines rest

/-- Index formulation of `NoDupValidTags`. -/
theorem noDupValidTags_iff (lines : List CacheLine) :
    NoDupValidTags lines ↔ ∀ i j, i < j → j < lines.length →
      (lines.getD i dfltLine).valid = true → (lines.getD j dfltLine).valid = true →
      (lines.getD i dfltLine).tag ≠ (lines.getD j dfltLine).tag := by
  rw [NoDupValidTags, List.pairwise_iff_getElem]
  constructor
  · intro h i j hij hj
    have hi : i < lines.length := Nat.lt_trans hij hj
    rw [List.getD_eq_getElem _ _ hi, List.getD_eq_getElem _ _ hj]
    exact h i j hi hj hij
  · intro h i j hi hj hij
    have h2 := h i j hij hj
    rw [List.getD_eq_getElem _ _ hi, List.getD_eq_getElem _ _ hj] at h2
    exact h2

/-- A successful `access` preserves the no-duplicate-valid-tags invariant and
the number of lines. -/
theorem access_preserves_noDup (lines : List CacheLine) (tag t : Nat)
    (r : Bool × Bool) (set2 : CacheSet) (t2 : Nat)
    (hacc : CacheSet.access ⟨lines⟩ tag t = some (r, set2, t2))
    (hnd : NoDupValidTags lines) :
    NoDupValidTags set2.lines ∧ set2.lines.length = lines.length := by
  cases hfind : findHitIdx tag lines with
  | some i =>
    rw [access_hit_eq ⟨lines⟩ tag t i hfind] at hacc
    simp only [Option.some_inj, Prod.mk.injEq] at hacc
    obtain ⟨-, hset, -⟩ := hacc
    subst hset
    have hfields : ∀ c,
        ((updateAt (fun l => { l with last_used := t }) i lines).getD c dfltLine).valid =
          (lines.getD c dfltLine).valid ∧
        ((updateAt (fun l => { l with last_used := t }) i lines).getD c dfltLine).tag =
          (lines.getD c dfltLine).tag := by
      intro c
      rw [getD_updateAt]
      by_cases hc : i = c ∧ c < lines.length
      · rw [if_pos hc]
        exact ⟨rfl, rfl⟩
      · rw [if_neg hc]
        exact ⟨rfl, rfl⟩
    refine ⟨?_, updateAt_length _ _ _⟩
    rw [noDupValidTags_iff]
    rw [noDupValidTags_iff] at hnd
    intro a b hab hb hva hvb
    rw [updateAt_length] at hb
    rw [(hfields a).1] at hva
    rw [(hfields b).1] at hvb
    rw [(hfields a).2, (hfields b).2]
    exact hnd a b hab hb hva hvb
  | none =>
    have hmiss : ∀ l ∈ lines, l.is_hit tag = false := (findHitIdx_eq_none tag lines).mp hfind
    cases hvic : lruVictimIdx lines with
    | some j =>
      rw [access_miss_eq ⟨lines⟩ tag t j hfind hvic] at hacc
      simp only [Option.some_inj, Prod.mk.injEq] at hacc
      obtain ⟨-, hset, -⟩ := hacc
      subst hset
      have hnotag : ∀ a, a < lines.length → (lines.getD a dfltLine).valid = true →
          (lines.getD a dfltLine).tag ≠ tag := by
        intro a ha hva hcontra
        have hm := hmiss (lines.getD a dfltLine) (getD_mem ha dfltLine)
        rw [CacheLine.is_hit, hva, hcontra] at hm
        simp at hm
      have hg : ∀ c, (updateAt (fun _ => CacheLine.mk true tag (t + 1)) j lines).getD c
          dfltLine = if j = c ∧ c < lines.length then CacheLine.mk true tag (t + 1)
            else lines.getD c dfltLine := fun c => getD_updateAt _ _ _ _ _
      refine ⟨?_, updateAt_length _ _ _⟩
      rw [noDupValidTags_iff]
      rw [noDupValidTags_iff] at hnd
      intro a b hab hb hva hvb
      rw [updateAt_length] at hb
      rw [hg a] at hva
      rw [hg b] at hvb
      rw [hg a, hg b]
      by_cases hja : j = a ∧ a < lines.length <;>
        by_cases hjb : j = b ∧ b < lines.length
      · exact absurd hab (by omega)
      · rw [if_pos hja] at hva ⊢
        rw [if_neg hjb] at hvb ⊢
        exact fun hcontra => hnotag b hb hvb (by simpa using hcontra.symm)
      · rw [if_neg hja] at hva ⊢
        rw [if_pos hjb] at hvb ⊢
        exact fun hcontra => hnotag a (Nat.lt_trans hab hb) hva (by simpa using hcontra)
      · rw [if_neg hja] at hva ⊢
        rw [if_neg hjb] at hvb ⊢
        exact hnd a b hab hb hva hvb
    | none =>
      rw [access_none_eq ⟨lines⟩ tag t hfind hvic] at hacc
      cases hacc

/-- Pairwise-distinct valid tags give a duplicate-free `validTags` list. -/
theorem validTags_nodup (lines : List CacheLine) (h : NoDupValidTags lines) :
    (validTags lines).Nodup := by
  rw [validTags, List.Nodup, List.pairwise_map]
  have h2 : (lines.filter fun l => l.valid).Pairwise
      (fun a b => a.valid = true → b.valid = true → a.tag ≠ b.tag) :=
    List.Pairwise.filter _ h
  refine List.Pairwise.imp_of_mem ?_ h2
  intro a b ha hb hr
  exact hr (List.mem_filter.mp ha).2 (List.mem_filter.mp hb).2

/-- The all-invalid initial set trivially satisfies the invariant. -/
theorem noDup_replicate (e : Nat) : NoDupValidTags (List.replicate e dfltLine) := by
  rw [noDupValidTags_iff]
  intro i j hij hj hvi
  have hi : i < (List.replicate e dfltLine).length := Nat.lt_trans hij hj
  rw [List.getD_eq_getElem _ _ hi, List.getElem_replicate] at hvi
  exact absurd hvi (by simp [dfltLine])

/-- The invariant and the line count survive any sequence of accesses. -/
theorem accessSeq_inv (seq : List (Nat × Nat)) :
    ∀ lines : List CacheLine, NoDupValidTags lines →
      NoDupValidTags (accessSeq lines seq) ∧
        (accessSeq lines seq).length = lines.length := by
  induction seq with
  | nil => exact fun lines h => ⟨h, rfl⟩
  | cons p rest ih =>
    intro lines h
    obtain ⟨tag, t⟩ := p
    cases hacc : CacheSet.access ⟨lines⟩ tag t with
    | some res =>
      obtain ⟨r, set2, t2⟩ := res
      obtain ⟨h2, hlen⟩ := access_preserves_noDup lines tag t r set2 t2 hacc h
      have hstep : accessSeq lines ((tag, t) :: rest) = accessSeq set2.lines rest := by
        simp [accessSeq, hacc]
      obtain ⟨h3, hlen3⟩ := ih set2.lines h2
      rw [hstep]
      exact ⟨h3, by omega⟩
    | none =>
      have hstep : accessSeq lines ((tag, t) :: rest) = accessSeq lines rest := by
        simp [accessSeq, hacc]
      rw [hstep]
      exact ih lines h

/-- Claim C6: starting from an all-invalid set of associativity `e`, any finite
sequence of accesses (arbitrary tags and clock values) leaves the set with `e`
lines, no two valid lines sharing a tag, and hence at most `e` distinct valid
tags; moreover every single successful access preserves the invariant. -/
theorem C6_no_duplicate_valid_tags :
    (∀ (e : Nat) (seq : List (Nat × Nat)),
      (accessSeq (List.replicate e dfltLine) seq).length = e ∧
      NoDupValidTags (accessSeq (List.replicate e dfltLine) seq) ∧
      (validTags (accessSeq (List.replicate e dfltLine) seq)).Nodup ∧
      (validTags (accessSeq (List.replicate e dfltLine) seq)).length ≤ e) ∧
    (∀ (lines : List CacheLine) (tag t : Nat) (r : Bool × Bool) (set2 : CacheSet)
      (t2 : Nat), CacheSet.access ⟨lines⟩ tag t = some (r, set2, t2) →
      NoDupValidTags lines →
      NoDupValidTags set2.lines ∧ set2.lines.length = lines.length) := by
  constructor
  · intro e seq
    obtain ⟨hnd, hlen⟩ := accessSeq_inv seq (List.replicate e dfltLine) (noDup_replicate e)
    rw [List.length_replicate] at hlen
    refine ⟨hlen, hnd, validTags_nodup _ hnd, ?_⟩
    calc (validTags (accessSeq (List.replicate e dfltLine) seq)).length
        = ((accessSeq (List.replicate e dfltLine) seq).filter
            fun l => l.valid).length := by rw [validTags, List.length_map]
      _ ≤ (accessSeq (List.replicate e dfltLine) seq).length :=
          List.length_filter_le _ _
      _ = e := hlen
  · exact access_preserves_noDup

/-- Witness for C6: the preservation half applied to one concrete miss on a
one-line invalid set (the fold half is hypothesis-free). -/
theorem C6_witness :
    NoDupValidTags (CacheSet.mk [⟨true, 3, 1⟩]).lines ∧
    (CacheSet.mk [⟨true, 3, 1⟩]).lines.length = [dfltLine].length :=
  C6_no_duplicate_valid_tags.2 [dfltLine] 3 0 (false, false) ⟨[⟨true, 3, 1⟩]⟩ 1
    (by decide) (by simp [NoDupValidTags])

/-- Line `i` is strictly more recent than every other line of the set. -/
def StrictlyMostRecent (lines : List CacheLine) (i : Nat) : Prop :=
  ∀ j, j < lines.length → j ≠ i → lu lines j < lu lines i

/-- Counterexample to claim C7 as stated: on a two-line set, miss on tag 0
(clock 0 to 1), miss on tag 1 (clock 1 to 2), then hit on tag 0.  The hit
touches line 0, setting its `last_used` to the unadvanced clock 2, which ties
line 1 — so the most recently touched line does not have the strictly largest
`last_used`. -/
theorem C7_counterexample :
    CacheSet.access ⟨List.replicate 2 dfltLine⟩ 0 0 =
      some ((false, false), ⟨[⟨true, 0, 1⟩, dfltLine]⟩, 1) ∧
    CacheSet.access ⟨[⟨true, 0, 1⟩, dfltLine]⟩ 1 1 =
      some ((false, false), ⟨[⟨true, 0, 1⟩, ⟨true, 1, 2⟩]⟩, 2) ∧
    CacheSet.access ⟨[⟨true, 0, 1⟩, ⟨true, 1, 2⟩]⟩ 0 2 =
      some ((true, false), ⟨[⟨true, 0, 2⟩, ⟨true, 1, 2⟩]⟩, 2) ∧
    findHitIdx 0 [⟨true, 0, 1⟩, ⟨true, 1, 2⟩] = some 0 ∧
    ¬ StrictlyMostRecent [⟨true, 0, 2⟩, ⟨true, 1, 2⟩] 0 := by
  refine ⟨by decide, by decide, by decide, by decide, ?_⟩
  intro h
  exact absurd (h 1 (by decide) (by decide)) (by decide)

/-- Claim C7 amended: provided every `last_used` is at most the shared clock
(true in every reachable state), the line touched by an access — the hit line
or the replacement victim — ends with `last_used` equal to the returned clock
and maximal in the set (ties allowed, so not necessarily strictly largest),
and the bound on `last_used` is maintained relative to the clock. -/
theorem C7_touched_line_has_maximal_recency (set : CacheSet) (tag t : Nat)
    (hit ev : Bool) (set2 : CacheSet) (t2 : Nat)
    (hinv : ∀ l ∈ set.lines, l.last_used ≤ t)
    (hacc : set.access tag t = some ((hit, ev), set2, t2)) :
    (∃ i, i < set2.lines.length ∧ lu set2.lines i = t2 ∧
      (if hit = true then findHitIdx tag set.lines = some i
        else lruVictimIdx set.lines = some i) ∧
      ∀ j, j < set2.lines.length → lu set2.lines j ≤ lu set2.lines i) ∧
    (∀ l ∈ set2.lines, l.last_used ≤ t2) ∧ t ≤ t2 := by
  cases hfind : findHitIdx tag set.lines with
  | some i =>
    rw [access_hit_eq set tag t i hfind] at hacc
    simp only [Option.some_inj, Prod.mk.injEq] at hacc
    obtain ⟨⟨hhit, -⟩, hset, ht⟩ := hacc
    have hlines : set2.lines = updateAt (fun l => { l with last_used := t }) i set.lines := by
      rw [← hset]
    rw [hlines, ← ht]
    obtain ⟨hilen, -, -⟩ := findHitIdx_some_spec tag set.lines i hfind
    have hg : ∀ c, (updateAt (fun l => { l with last_used := t }) i set.lines).getD c
        dfltLine = if i = c ∧ c < set.lines.length then
          { set.lines.getD c dfltLine with last_used := t }
          else set.lines.getD c dfltLine := fun c => getD_updateAt _ _ _ _ _
    have hlen2 : (updateAt (fun l => { l with last_used := t }) i set.lines).length =
        set.lines.length := updateAt_length _ _ _
    have hmax : ∀ j, j < (updateAt (fun l => { l with last_used := t }) i
        set.lines).length → lu (updateAt (fun l => { l with last_used := t }) i
          set.lines) j ≤ t := by
      intro j hj
      rw [hlen2] at hj
      rw [lu, hg j]
      by_cases hc : i = j ∧ j < set.lines.length
      · rw [if_pos hc]
      · rw [if_neg hc]
        exact hinv _ (getD_mem hj dfltLine)
    have hlui : lu (updateAt (fun l => { l with last_used := t }) i set.lines) i = t := by
      rw [lu, hg i, if_pos ⟨rfl, hilen⟩]
    refine ⟨⟨i, by omega, hlui, ?_, ?_⟩, ?_, Nat.le_refl t⟩
    · rw [if_pos hhit.symm]
    · intro j hj
      rw [hlui]
      exact hmax j hj
    · intro l hl
      obtain ⟨idx, hidx, rfl⟩ := List.mem_iff_getElem.mp hl
      have h2 := hmax idx hidx
      rwa [lu, List.getD_eq_getElem _ _ hidx] at h2
  | none =>
    cases hvic : lruVictimIdx set.lines with
    | some j =>
      rw [access_miss_eq set tag t j hfind hvic] at hacc
      simp only [Option.some_inj, Prod.mk.injEq] at hacc
      obtain ⟨⟨hhit, -⟩, hset, ht⟩ := hacc
      have hlines : set2.lines =
          updateAt (fun _ => CacheLine.mk true tag (t + 1)) j set.lines := by
        rw [← hset]
      rw [hlines, ← ht]
      have hne : set.lines ≠ [] := by
        intro hnil
        rw [hnil] at hvic
        cases hvic
      obtain ⟨j0, hvic0, hj0len, -, -⟩ := lruVictimIdx_spec set.lines hne
      rw [hvic] at hvic0
      have hjlen : j < set.lines.length := by
        cases hvic0
        exact hj0len
      have hg : ∀ c, (updateAt (fun _ => CacheLine.mk true tag (t + 1)) j
          set.lines).getD c dfltLine = if j = c ∧ c < set.lines.length then
            CacheLine.mk true tag (t + 1) else set.lines.getD c dfltLine :=
        fun c => getD_updateAt _ _ _ _ _
      have hlen2 : (updateAt (fun _ => CacheLine.mk true tag (t + 1)) j
          set.lines).length = set.lines.length := updateAt_length _ _ _
      have hmax : ∀ c, c < (updateAt (fun _ => CacheLine.mk true tag (t + 1)) j
          set.lines).length → lu (updateAt (fun _ => CacheLine.mk true tag (t + 1)) j
            set.lines) c ≤ t + 1 := by
        intro c hc
        rw [hlen2] at hc
        rw [lu, hg c]
        by_cases hcc : j = c ∧ c < set.lines.length
        · rw [if_pos hcc]
        · rw [if_neg hcc]
          have h2 := hinv _ (getD_mem hc dfltLine)
          omega
      have hluj : lu (updateAt (fun _ => CacheLine.mk true tag (t + 1)) j
          set.lines) j = t + 1 := by
        rw [lu, hg j, if_pos ⟨rfl, hjlen⟩]
      refine ⟨⟨j, by omega, hluj, ?_, ?_⟩, ?_, by omega⟩
      · rw [if_neg (by rw [← hhit]; exact Bool.false_ne_true)]
      · intro c hc
        rw [hluj]
        exact hmax c hc
      · intro l hl
        obtain ⟨idx, hidx, rfl⟩ := List.mem_iff_getElem.mp hl
        have h2 := hmax idx hidx
        rwa [lu, List.getD_eq_getElem _ _ hidx] at h2
    | none =>
      rw [access_none_eq set tag t hfind hvic] at hacc
      cases hacc

/-- Witness for C7 amended: a concrete hit at clock 5 on a two-line set. -/
theorem C7_witness :
    (∃ i, i < (CacheSet.mk [⟨true, 1, 5⟩, ⟨false, 0, 0⟩]).lines.length ∧
      lu (CacheSet.mk [⟨true, 1, 5⟩, ⟨false, 0, 0⟩]).lines i = 5 ∧
      (if (true : Bool) = true then
          findHitIdx 1 (CacheSet.mk [⟨true, 1, 0⟩, ⟨false, 0, 0⟩]).lines = some i
        else lruVictimIdx (CacheSet.mk [⟨true, 1, 0⟩, ⟨false, 0, 0⟩]).lines = some i) ∧
      ∀ j, j < (CacheSet.mk [⟨true, 1, 5⟩, ⟨false, 0, 0⟩]).lines.length →
        lu (CacheSet.mk [⟨true, 1, 5⟩, ⟨false, 0, 0⟩]).lines j ≤
          lu (CacheSet.mk [⟨true, 1, 5⟩, ⟨false, 0, 0⟩]).lines i) ∧
    (∀ l ∈ (CacheSet.mk [⟨true, 1, 5⟩, ⟨false, 0, 0⟩]).lines, l.last_used ≤ 5) ∧
    5 ≤ 5 :=
  C7_touched_line_has_maximal_recency ⟨[⟨true, 1, 0⟩, ⟨false, 0, 0⟩]⟩ 1 5 true false
    ⟨[⟨true, 1, 5⟩, ⟨false, 0, 0⟩]⟩ 5 (by decide) (by decide)

/-- The tag queried at step `n` when two tags alternate: `tagA` on even steps,
`tagB` on odd steps. -/
def tagQ (tagA tagB n : Nat) : Nat :=
  if n % 2 = 0 then tagA else tagB

/-- State (lines, clock) of a single-line set after `n` alternating accesses,
starting all-invalid at clock 0 (a panicking access leaves the state alone). -/
def altState (tagA tagB : Nat) : Nat → List CacheLine × Nat
  | 0 => (List.replicate 1 dfltLine, 0)
  | n + 1 =>
    let p := altState tagA tagB n
    match CacheSet.access ⟨p.1⟩ (tagQ tagA tagB n) p.2 with
    | some (_, set2, t2) => (set2.lines, t2)
    | none => p

/-- The (hit, eviction) outcome of the `n`-th alternating access. -/
def altResult (tagA tagB n : Nat) : Option (Bool × Bool) :=
  (CacheSet.access ⟨(altState tagA tagB n).1⟩ (tagQ tagA tagB n)
    (altState tagA tagB n).2).map (fun r => r.1)

/-- Counterexample to claim C8 as stated: addresses `0x10` and `0x11` are
distinct and decode to the same set index under `s = 4, b = 4`, yet replaying
`[" L 10,4", " L 11,4"]` on an associativity-1 cache yields one hit and no
eviction — they share a tag, so the second access does not miss. -/
theorem C8_counterexample :
    (0x10 : Nat) ≠ 0x11 ∧
    (calculate_index_and_tag 0x10 4 4).1 = (calculate_index_and_tag 0x11 4 4).1 ∧
    (hits_misses_evictions_calc (Cache.new 4 1)
      [[' ', 'L', ' ', '1', '0', ',', '4'], [' ', 'L', ' ', '1', '1', ',', '4']]
      4 4).map (fun p => (p.1.hits, p.1.misses, p.1.evictions)) =
        some (1, 1, 0) := by
  refine ⟨by decide, by decide, by decide⟩

/-- Access on a singleton set that misses: overwrite the only line. -/
theorem access_singleton_miss (l : CacheLine) (tg t : Nat)
    (h : l.is_hit tg = false) :
    CacheSet.access ⟨[l]⟩ tg t =
      some ((false, l.valid), ⟨[⟨true, tg, t + 1⟩]⟩, t + 1) := by
  have hfind : findHitIdx tg [l] = none := by
    simp [findHitIdx, h]
  have hvic : lruVictimIdx [l] = some 0 := by
    simp [lruVictimIdx, lruAux]
  rw [access_miss_eq ⟨[l]⟩ tg t 0 hfind hvic]
  rfl

/-- Successive alternating queries always differ. -/
theorem tagQ_succ_ne (tagA tagB : Nat) (h : tagA ≠ tagB) (n : Nat) :
    tagQ tagA tagB n ≠ tagQ tagA tagB (n + 1) := by
  rcases Nat.mod_two_eq_zero_or_one n with hn | hn
  · have hn2 : (n + 1) % 2 = 1 := by omega
    rw [tagQ, tagQ, if_pos hn, if_neg (by omega)]
    exact h
  · have hn2 : (n + 1) % 2 = 0 := by omega
    rw [tagQ, tagQ, if_neg (by omega), if_pos hn2]
    exact h.symm

/-- After `n + 1` alternating accesses with distinct tags, the single line
holds the tag queried at step `n`, stamped with clock `n + 1`. -/
theorem altState_succ (tagA tagB : Nat) (h : tagA ≠ tagB) :
    ∀ n, altState tagA tagB (n + 1) =
      ([⟨true, tagQ tagA tagB n, n + 1⟩], n + 1) := by
  intro n
  induction n with
  | zero =>
    have hmiss : dfltLine.is_hit (tagQ tagA tagB 0) = false := by
      simp [dfltLine, CacheLine.is_hit]
    show (match CacheSet.access ⟨[dfltLine]⟩ (tagQ tagA tagB 0) 0 with
      | some (_, set2, t2) => (set2.lines, t2)
      | none => ([dfltLine], 0)) =
        ([⟨true, tagQ tagA tagB 0, 0 + 1⟩], 0 + 1)
    rw [access_singleton_miss dfltLine (tagQ tagA tagB 0) 0 hmiss]
  | succ n ih =>
    have hmiss : (CacheLine.mk true (tagQ tagA tagB n) (n + 1)).is_hit
        (tagQ tagA tagB (n + 1)) = false := by
      simp only [CacheLine.is_hit, Bool.true_and]
      exact beq_eq_false_iff_ne.mpr (tagQ_succ_ne tagA tagB h n)
    have hstep : altState tagA tagB (n + 1 + 1) =
        match CacheSet.access ⟨(altState tagA tagB (n + 1)).1⟩
          (tagQ tagA tagB (n + 1)) (altState tagA tagB (n + 1)).2 with
        | some (_, set2, t2) => (set2.lines, t2)
        | none => altState tagA tagB (n + 1) := rfl
    rw [hstep, ih]
    show (match CacheSet.access ⟨[CacheLine.mk true (tagQ tagA tagB n) (n + 1)]⟩
        (tagQ tagA tagB (n + 1)) (n + 1) with
      | some (_, set2, t2) => (set2.lines, t2)
      | none => ([CacheLine.mk true (tagQ tagA tagB n) (n + 1)], n + 1)) =
        ([⟨true, tagQ tagA tagB (n + 1), n + 1 + 1⟩], n + 1 + 1)
    rw [access_singleton_miss _ _ _ hmiss]

/-- Claim C8 amended: for an associativity-1 cache and two addresses that
decode to the same set index *and to distinct tags*, alternating accesses miss
every time, with an eviction on every access after the first.  (As stated the
claim is false: distinct addresses in the same block share a tag and hit —
see the counterexample.) -/
theorem C8_alternating_thrash (a1 a2 s b : Nat)
    (_hsame : (calculate_index_and_tag a1 s b).1 = (calculate_index_and_tag a2 s b).1)
    (hdiff : (calculate_index_and_tag a1 s b).2 ≠ (calculate_index_and_tag a2 s b).2) :
    ∀ n, altResult (calculate_index_and_tag a1 s b).2
      (calculate_index_and_tag a2 s b).2 n = some (false, decide (1 ≤ n)) := by
  intro n
  cases n with
  | zero =>
    have hmiss : dfltLine.is_hit (tagQ (calculate_index_and_tag a1 s b).2
        (calculate_index_and_tag a2 s b).2 0) = false := by
      simp [dfltLine, CacheLine.is_hit]
    rw [altResult]
    rw [show altState (calculate_index_and_tag a1 s b).2
      (calculate_index_and_tag a2 s b).2 0 = ([dfltLine], 0) from rfl]
    rw [access_singleton_miss _ _ _ hmiss]
    rfl
  | succ n =>
    rw [altResult, altState_succ _ _ hdiff n]
    have hmiss : (CacheLine.mk true (tagQ (calculate_index_and_tag a1 s b).2
        (calculate_index_and_tag a2 s b).2 n) (n + 1)).is_hit
          (tagQ (calculate_index_and_tag a1 s b).2
            (calculate_index_and_tag a2 s b).2 (n + 1)) = false := by
      simp only [CacheLine.is_hit, Bool.true_and]
      exact beq_eq_false_iff_ne.mpr (tagQ_succ_ne _ _ hdiff n)
    rw [access_singleton_miss _ _ _ hmiss]
    simp

/-- Witness for C8 amended: the two addresses of the repository's eviction
test map to set 0 under `s = 1, b = 5` with distinct tags; the third
alternating access is a miss with eviction. -/
theorem C8_witness :
    altResult (calculate_index_and_tag 0x04022d00 1 5).2
      (calculate_index_and_tag 0x04022e00 1 5).2 2 = some (false, decide (1 ≤ 2)) :=
  C8_alternating_thrash 0x04022d00 0x04022e00 1 5 (by decide) (by decide) 2

/-- Counterexample to claim C9 as stated: the instruction-fetch line `I 1,1`
is filtered, but prepending a single space yields a line that is *not*
filtered — it parses as an ordinary entry with operation character `I` —
so leading whitespace does change whether a line is filtered. -/
theorem C9_counterexample :
    parse_trace_line ['I', ' ', '1', ',', '1'] = some none ∧
    parse_trace_line ([' '] ++ ['I', ' ', '1', ',', '1']) = some (some ('I', 1)) ∧
    parse_trace_line ['I', ' ', '1', ',', '1'] ≠
      parse_trace_line ([' '] ++ ['I', ' ', '1', ',', '1']) := by
  refine ⟨by decide, by decide, by decide⟩

/-- Prepending whitespace leaves the token split unchanged. -/
theorem splitWsAux_ws_append (ws l : List Char) (h : ∀ c ∈ ws, isWs c = true) :
    splitWsAux [] (ws ++ l) = splitWsAux [] l := by
  induction ws with
  | nil => rfl
  | cons w ws2 ih =>
    have hw : isWs w = true := h w (List.mem_cons_self w ws2)
    show splitWsAux [] (w :: (ws2 ++ l)) = splitWsAux [] l
    rw [splitWsAux, if_pos hw]
    exact ih (fun c hc => h c (List.mem_cons_of_mem w hc))

/-- Two lines that are both exempt from the instruction-fetch filter and
split into the same tokens parse identically. -/
theorem parse_congr (x y : List Char) (hx : ¬ x.head? = some 'I')
    (hy : ¬ y.head? = some 'I') (hsplit : splitWhitespace x = splitWhitespace y) :
    parse_trace_line x = parse_trace_line y := by
  unfold parse_trace_line
  rw [if_neg hx, if_neg hy, hsplit]

/-- A line whose first character is not the marker is never filtered: the
parse either panics or yields an entry. -/
theorem parse_not_filtered (line : List Char) (h : ¬ line.head? = some 'I') :
    parse_trace_line line = none ∨
      ∃ op address, parse_trace_line line = some (some (op, address)) := by
  rw [parse_trace_line, if_neg h]
  split
  · exact Or.inl rfl
  · split
    · exact Or.inl rfl
    · split
      · exact Or.inl rfl
      · split
        · exact Or.inl rfl
        · exact Or.inr ⟨_, _, rfl⟩

/-- Claim C9 amended: a line is filtered exactly when its *first* character is
the instruction-fetch marker, and prepending a nonempty whitespace prefix
preserves the parse result exactly when the first character is *not* the
marker — prepending whitespace to an instruction-fetch line always changes
the result, making the line escape the filter (see the counterexample). -/
theorem C9_whitespace_and_filter :
    (∀ line : List Char,
      parse_trace_line line = some none ↔ line.head? = some 'I') ∧
    (∀ (w : Char) (ws l : List Char), (∀ c ∈ w :: ws, isWs c = true) →
      (parse_trace_line ((w :: ws) ++ l) = parse_trace_line l ↔
        ¬ l.head? = some 'I')) := by
  constructor
  · intro line
    constructor
    · intro h
      by_contra hne
      rcases parse_not_filtered line hne with h2 | ⟨op, address, h2⟩ <;>
        rw [h2] at h <;> simp at h
    · intro h
      rw [parse_trace_line, if_pos h]
  · intro w ws l hws
    have hw : isWs w = true := hws w (List.mem_cons_self w ws)
    have hx : ¬ ((w :: ws) ++ l).head? = some 'I' := by
      intro hcontra
      simp only [List.cons_append, List.head?_cons, Option.some_inj] at hcontra
      rw [hcontra] at hw
      exact absurd hw (by decide)
    have hsplit : splitWhitespace ((w :: ws) ++ l) = splitWhitespace l :=
      splitWsAux_ws_append (w :: ws) l hws
    constructor
    · intro heq hy
      have hfl : parse_trace_line l = some none := by
        rw [parse_trace_line, if_pos hy]
      rcases parse_not_filtered ((w :: ws) ++ l) hx with h2 | ⟨op, address, h2⟩
      · rw [heq, hfl] at h2
        cases h2
      · rw [heq, hfl] at h2
        simp at h2
    · intro hy
      exact parse_congr ((w :: ws) ++ l) l hx hy hsplit

/-- Witness for C9 amended: one space before an `L` line does not change the
parse, and the line's first character is indeed not the marker. -/
theorem C9_witness :
    parse_trace_line (('\x20' :: []) ++ ['L', ' ', '1', ',', '1']) =
        parse_trace_line ['L', ' ', '1', ',', '1'] ↔
      ¬ (['L', ' ', '1', ',', '1'] : List Char).head? = some 'I' :=
  C9_whitespace_and_filter.2 ' ' [] ['L', ' ', '1', ',', '1'] (by decide)

/-- A nonempty set never panics: `access` succeeds, returning the clock
unchanged (hit) or advanced by one (miss). -/
theorem access_isSome (set : CacheSet) (tag t : Nat) (hne : set.lines ≠ []) :
    ∃ hit ev set2 t2, set.access tag t = some ((hit, ev), set2, t2) ∧
      (t2 = t ∨ t2 = t + 1) := by
  cases hfind : findHitIdx tag set.lines with
  | some i =>
    exact ⟨true, false, _, t, access_hit_eq set tag t i hfind, Or.inl rfl⟩
  | none =>
    obtain ⟨j, hvic, -, -, -⟩ := lruVictimIdx_spec set.lines hne
    exact ⟨false, _, _, t + 1, access_miss_eq set tag t j hfind hvic, Or.inr rfl⟩

/-- `access` never changes the number of lines in the set. -/
theorem access_length (set : CacheSet) (tag t : Nat) (r : Bool × Bool)
    (set2 : CacheSet) (t2 : Nat)
    (hacc : set.access tag t = some (r, set2, t2)) :
    set2.lines.length = set.lines.length := by
  cases hfind : findHitIdx tag set.lines with
  | some i =>
    rw [access_hit_eq set tag t i hfind] at hacc
    simp only [Option.some_inj, Prod.mk.injEq] at hacc
    rw [← hacc.2.1]
    exact updateAt_length _ _ _
  | none =>
    cases hvic : lruVictimIdx set.lines with
    | some j =>
      rw [access_miss_eq set tag t j hfind hvic] at hacc
      simp only [Option.some_inj, Prod.mk.injEq] at hacc
      rw [← hacc.2.1]
      exact updateAt_length _ _ _
    | none =>
      rw [access_none_eq set tag t hfind hvic] at hacc
      cases hacc

/-- `getD` at an index other than the one replaced by `set` is unchanged. -/
theorem getD_set_ne {α : Type} (l : List α) (i j : Nat) (a d : α) (h : i ≠ j) :
    (l.set i a).getD j d = l.getD j d := by
  rw [List.getD_eq_getElem?_getD, List.getD_eq_getElem?_getD,
    List.getElem?_set_ne h]

/-- Full characterisation of one loop iteration on a parsed entry: exactly one
decode, one set lookup and one `access`, then the counter updates, with the
unconditional extra hit for a Modify operation. -/
theorem processLine_eq (s b : Nat) (c : Cache) (t : Nat) (line : List Char)
    (op : Char) (address : Nat)
    (hp : parse_trace_line line = some (some (op, address)))
    (hidx : (calculate_index_and_tag address s b).1 < c.sets.length)
    (hit ev : Bool) (set2 : CacheSet) (t2 : Nat)
    (hacc : (c.sets.getD (calculate_index_and_tag address s b).1 dfltSet).access
      (calculate_index_and_tag address s b).2 t = some ((hit, ev), set2, t2)) :
    processLine s b (c, t) line = some
      ({ sets := c.sets.set (calculate_index_and_tag address s b).1 set2
         hits := c.hits + (if hit then 1 else 0) + (if op = 'M' then 1 else 0)
         misses := c.misses + (if hit then 0 else 1)
         evictions := c.evictions + (if hit then 0 else if ev then 1 else 0) },
       t2) := by
  have hget : c.sets.get? (calculate_index_and_tag address s b).1 =
      some (c.sets.getD (calculate_index_and_tag address s b).1 dfltSet) := by
    rw [List.get?_eq_getElem?, List.getElem?_eq_getElem hidx,
      List.getD_eq_getElem _ _ hidx]
  simp only [processLine, hp, hget, hacc]
  cases hit <;> by_cases hop : op = 'M' <;> simp [hop]

/-- Claim C3: a parsed trace entry triggers exactly one decode/lookup/access;
`hits` gains the access outcome plus one extra increment exactly when the
operation is Modify; `misses`/`evictions` are updated from the single access;
all other sets are untouched and the clock moves by at most one. -/
theorem C3_modify_counts_extra_hit (s b : Nat) (c : Cache) (t : Nat)
    (line : List Char) (op : Char) (address : Nat)
    (hp : parse_trace_line line = some (some (op, address)))
    (hidx : (calculate_index_and_tag address s b).1 < c.sets.length)
    (hne : (c.sets.getD (calculate_index_and_tag address s b).1 dfltSet).lines ≠ []) :
    ∃ hit ev set2 t2,
      (c.sets.getD (calculate_index_and_tag address s b).1 dfltSet).access
        (calculate_index_and_tag address s b).2 t = some ((hit, ev), set2, t2) ∧
      processLine s b (c, t) line = some
        ({ sets := c.sets.set (calculate_index_and_tag address s b).1 set2
           hits := c.hits + (if hit then 1 else 0) + (if op = 'M' then 1 else 0)
           misses := c.misses + (if hit then 0 else 1)
           evictions := c.evictions + (if hit then 0 else if ev then 1 else 0) },
         t2) ∧
      (∀ j, j ≠ (calculate_index_and_tag address s b).1 →
        (c.sets.set (calculate_index_and_tag address s b).1 set2).getD j dfltSet =
          c.sets.getD j dfltSet) ∧
      t ≤ t2 ∧ t2 ≤ t + 1 := by
  obtain ⟨hit, ev, set2, t2, hacc, hclock⟩ :=
    access_isSome (c.sets.getD (calculate_index_and_tag address s b).1 dfltSet)
      (calculate_index_and_tag address s b).2 t hne
  refine ⟨hit, ev, set2, t2, hacc,
    processLine_eq s b c t line op address hp hidx hit ev set2 t2 hacc, ?_,
    by omega, by omega⟩
  intro j hj
  exact getD_set_ne _ _ _ _ _ (fun hcontra => hj hcontra.symm)

/-- Witness for C3: a Modify entry on a fresh associativity-1 cache; the load
misses, and `hits` still gains the unconditional store increment. -/
theorem C3_witness :
    ∃ hit ev set2 t2,
      ((Cache.new 4 1).sets.getD
          (calculate_index_and_tag 0x10 4 4).1 dfltSet).access
        (calculate_index_and_tag 0x10 4 4).2 0 = some ((hit, ev), set2, t2) ∧
      processLine 4 4 (Cache.new 4 1, 0)
          [' ', 'M', ' ', '1', '0', ',', '4'] = some
        ({ sets := (Cache.new 4 1).sets.set (calculate_index_and_tag 0x10 4 4).1 set2
           hits := (Cache.new 4 1).hits + (if hit then 1 else 0) +
             (if 'M' = 'M' then 1 else 0)
           misses := (Cache.new 4 1).misses + (if hit then 0 else 1)
           evictions := (Cache.new 4 1).evictions +
             (if hit then 0 else if ev then 1 else 0) }, t2) ∧
      (∀ j, j ≠ (calculate_index_and_tag 0x10 4 4).1 →
        ((Cache.new 4 1).sets.set (calculate_index_and_tag 0x10 4 4).1 set2).getD j
          dfltSet = (Cache.new 4 1).sets.getD j dfltSet) ∧
      0 ≤ t2 ∧ t2 ≤ 0 + 1 :=
  C3_modify_counts_extra_hit 4 4 (Cache.new 4 1) 0
    [' ', 'M', ' ', '1', '0', ',', '4'] 'M' 0x10 (by decide) (by decide) (by decide)

/-- Shape invariant of the cache during a replay: `2^s` sets of `e` lines. -/
def CacheShape (s e : Nat) (c : Cache) : Prop :=
  c.sets.length = 2 ^ s ∧ ∀ st ∈ c.sets, st.lines.length = e

/-- The decoded set index always fits below `2^s`. -/
theorem set_index_lt (address s b : Nat) :
    (calculate_index_and_tag address s b).1 < 2 ^ s := by
  show (address >>> b) &&& ((1 <<< s) - 1) < 2 ^ s
  rw [Nat.shiftLeft_eq, one_mul, Nat.and_pow_two_sub_one_eq_mod]
  exact Nat.mod_lt _ (Nat.two_pow_pos s)

/-- One loop iteration on a well-shaped cache succeeds and preserves shape. -/
theorem processLine_some (s b e : Nat) (he : 1 ≤ e) (c : Cache) (t : Nat)
    (line : List Char) (hsh : CacheShape s e c)
    (hl : parse_trace_line line ≠ none) :
    ∃ c2 t2, processLine s b (c, t) line = some (c2, t2) ∧ CacheShape s e c2 := by
  cases hp : parse_trace_line line with
  | none => exact absurd hp hl
  | some o =>
    cases o with
    | none => exact ⟨c, t, by simp [processLine, hp], hsh⟩
    | some pr =>
      obtain ⟨op, address⟩ := pr
      have hidx : (calculate_index_and_tag address s b).1 < c.sets.length := by
        rw [hsh.1]
        exact set_index_lt address s b
      have hmem : c.sets.getD (calculate_index_and_tag address s b).1 dfltSet ∈
          c.sets := getD_mem hidx dfltSet
      have hlen : (c.sets.getD (calculate_index_and_tag address s b).1
          dfltSet).lines.length = e := hsh.2 _ hmem
      have hne : (c.sets.getD (calculate_index_and_tag address s b).1
          dfltSet).lines ≠ [] := by
        intro h0
        rw [h0] at hlen
        simp at hlen
        omega
      obtain ⟨hit, ev, set2, t2, hacc, -⟩ :=
        access_isSome _ (calculate_index_and_tag address s b).2 t hne
      refine ⟨_, t2, processLine_eq s b c t line op address hp hidx hit ev set2 t2
        hacc, ?_, ?_⟩
      · rw [List.length_set]
        exact hsh.1
      · intro st hst
        rcases List.mem_or_eq_of_mem_set hst with hst2 | rfl
        · exact hsh.2 st hst2
        · rw [access_length _ _ _ _ _ _ hacc]
          exact hlen

/-- The whole fold succeeds on a well-shaped cache and a panic-free trace. -/
theorem foldl_processLine_isSome (s b e : Nat) (he : 1 ≤ e) :
    ∀ (L : List (List Char)) (c : Cache) (t : Nat), CacheShape s e c →
      (∀ l ∈ L, parse_trace_line l ≠ none) →
      (L.foldl (fun acc line => acc.bind (fun st => processLine s b st line))
        (some (c, t))).isSome := by
  intro L
  induction L with
  | nil => exact fun c t _ _ => rfl
  | cons line rest ih =>
    intro c t hsh hparse
    obtain ⟨c2, t2, hstep, hsh2⟩ := processLine_some s b e he c t line hsh
      (hparse line (List.mem_cons_self line rest))
    have : (some (c, t)).bind (fun st => processLine s b st line) = some (c2, t2) := by
      simpa using hstep
    rw [List.foldl_cons, this]
    exact ih c2 t2 hsh2 (fun l hl => hparse l (List.mem_cons_of_mem line hl))

/-- Claim C10: with `e ≥ 1`, every decoded set index is within the `2^s` sets
built by `Cache::new`, and a full replay of any trace whose lines all parse
never panics — the indexing never goes out of bounds and the zero-line
`unreachable` branch of `access` is never taken. -/
theorem C10_indexing_safe (s b e : Nat) (he : 1 ≤ e) (lines : List (List Char))
    (hparse : ∀ l ∈ lines, parse_trace_line l ≠ none) :
    (∀ address : Nat,
      (calculate_index_and_tag address s b).1 < (Cache.new s e).sets.length) ∧
    (hits_misses_evictions_calc (Cache.new s e) lines s b).isSome := by
  have hshape : CacheShape s e (Cache.new s e) := by
    constructor
    · exact List.length_replicate _ _
    · intro st hst
      rw [List.eq_of_mem_replicate hst]
      exact List.length_replicate _ _
  constructor
  · intro address
    show (calculate_index_and_tag address s b).1 <
      (List.replicate (2 ^ s) (⟨List.replicate e dfltLine⟩ : CacheSet)).length
    rw [List.length_replicate]
    exact set_index_lt address s b
  · exact foldl_processLine_isSome s b e he lines (Cache.new s e) 0 hshape hparse

/-- Witness for C10: a two-line trace on a small cache runs to completion. -/
theorem C10_witness :
    (∀ address : Nat,
      (calculate_index_and_tag address 2 1).1 < (Cache.new 2 1).sets.length) ∧
    (hits_misses_evictions_calc (Cache.new 2 1)
      [[' ', 'L', ' ', '1', '0', ',', '4'], [' ', 'S', ' ', '2', '0', ',', '4']]
      2 1).isSome :=
  C10_indexing_safe 2 1 1 (by decide)
    [[' ', 'L', ' ', '1', '0', ',', '4'], [' ', 'S', ' ', '2', '0', ',', '4']]
    (by decide)

end CacheSim
